import Mathlib

/-!
Verification of the example-validation harness of this repository.

The harness consists of two scripts. The sequential validator runs every
discovered example one at a time in a for loop, counting passes and
failures, and exits with code 1 when any example failed. The parallel
validator (`runTestsWithConcurrency`) preallocates a slot array, starts
`min(concurrency, files.length)` workers, and each worker repeatedly grabs
`nextIndex++`, breaks when the grabbed index is out of range, runs the file
at that index and stores the result into the slot it claimed.

The scheduler is embedded as a small-step system: a `SchedState` carries
the shared cursor, the slot array, the status of every worker, and two
instrumentation logs (cursor grabs and slot writes).  A schedule is a list
of worker identifiers; `stepW` advances one worker by one atomic step
(claiming is atomic because the script has no suspension point between
reading and incrementing the cursor, JavaScript being single threaded),
and `exec` folds a schedule from the initial state.  Quantifying over all
schedules captures every interleaving of completion order.

The per-example runners (`runExample`, `runServerExample`) and the
server-config resolver live in `validation-common.ts`, which is not part
of the sources available here; those are modelled from the spec where a
claim needs their internals, and otherwise abstracted as functions.
-/

namespace Validate

/-- Outcome of running one example: success flag, wall-clock duration in
milliseconds, and an optional error message. -/
structure TestResult where
  success : Bool
  duration : Nat
  error : Option String
deriving DecidableEq, Repr

/-- Status of one worker of the parallel scheduler: waiting to claim the
next index, running the example at a claimed index, or stopped after
grabbing an out-of-range index. -/
inductive WStatus where
  | idle : WStatus
  | running : Nat → WStatus
  | done : WStatus
deriving DecidableEq, Repr

/-- State of the parallel scheduler of `runTestsWithConcurrency`:
the shared cursor `nextIndex`, the preallocated slot array `slots`,
the worker pool `workers`, and two instrumentation logs: `claims`
records every cursor grab as a pair (worker, grabbed index) in order,
and `writes` records every slot write as a pair (worker, slot index)
in order. -/
structure SchedState where
  nextIndex : Nat
  slots : List (Option TestResult)
  workers : List WStatus
  claims : List (Nat × Nat)
  writes : List (Nat × Nat)
deriving DecidableEq, Repr

/-- One atomic step of worker `w`.  An idle worker executes
`const currentIndex = nextIndex++` followed by the range check
(breaking when `currentIndex >= files.length`); a running worker
finishes its example and stores the result into its claimed slot;
a stopped or nonexistent worker does nothing.  `run i` abstracts the
test result produced by running the file at index `i`. -/
def stepW (run : Nat → TestResult) (N : Nat) (s : SchedState) (w : Nat) : SchedState :=
  match s.workers[w]? with
  | some WStatus.idle =>
    if s.nextIndex < N then
      { s with nextIndex := s.nextIndex + 1,
               workers := s.workers.set w (WStatus.running s.nextIndex),
               claims := s.claims ++ [(w, s.nextIndex)] }
    else
      { s with nextIndex := s.nextIndex + 1,
               workers := s.workers.set w WStatus.done,
               claims := s.claims ++ [(w, s.nextIndex)] }
  | some (WStatus.running i) =>
    { s with slots := s.slots.set i (some (run i)),
             workers := s.workers.set w WStatus.idle,
             writes := s.writes ++ [(w, i)] }
  | _ => s

/-- Initial scheduler state: cursor at 0, `N` empty slots, `W` idle
workers, empty logs. -/
def initState (N W : Nat) : SchedState :=
  { nextIndex := 0,
    slots := List.replicate N none,
    workers := List.replicate W WStatus.idle,
    claims := [],
    writes := [] }

/-- Run the scheduler of `runTestsWithConcurrency` on `N` files with
concurrency limit `K` under the interleaving `sched`.  The script starts
`Math.min(concurrency, files.length)` workers. -/
def exec (run : Nat → TestResult) (N K : Nat) (sched : List Nat) : SchedState :=
  sched.foldl (stepW run N) (initState N (min K N))

/-- The scheduler has returned: every worker has left its loop, which is
the condition under which `Promise.all(workers)` resolves. -/
def allDone (s : SchedState) : Prop :=
  ∀ st ∈ s.workers, st = WStatus.done

/-- Worker `w` is currently running the example at index `i`. -/
def runningAt (s : SchedState) (w i : Nat) : Prop :=
  s.workers[w]? = some (WStatus.running i)

/-- Number of examples currently in flight. -/
def runningCount (s : SchedState) : Nat :=
  (s.workers.filter fun st => match st with
    | WStatus.running _ => true
    | _ => false).length

/-- Inductive invariant of the scheduler, preserved by every step from
the initial state. -/
structure Inv (run : Nat → TestResult) (N W : Nat) (s : SchedState) : Prop where
  slotsLen : s.slots.length = N
  workersLen : s.workers.length = W
  runBound : ∀ w i, runningAt s w i → i < N ∧ i < s.nextIndex
  runSlot : ∀ w i, runningAt s w i → s.slots[i]? = some none
  runClaim : ∀ w i, runningAt s w i → (w, i) ∈ s.claims
  runUnique : ∀ w w' i, runningAt s w i → runningAt s w' i → w = w'
  slotWF : ∀ i, i < N → s.slots[i]? = some none ∨ s.slots[i]? = some (some (run i))
  slotChar : ∀ i, i < N →
    (i < s.nextIndex ↔ (s.slots[i]? = some (some (run i)) ∨ ∃ w, runningAt s w i))
  claimsChar : s.claims.map Prod.snd = List.range s.nextIndex
  writesSub : ∀ p ∈ s.writes, p ∈ s.claims
  writesChar : ∀ i, i < N →
    (s.writes.filter fun p => p.2 == i).length =
      (if s.slots[i]? = some none then 0 else 1)
  doneBound : ∀ w : Nat, s.workers[w]? = some WStatus.done → N < s.nextIndex

theorem inv_init (run : Nat → TestResult) (N W : Nat) : Inv run N W (initState N W) := by
  refine ⟨?_, ?_, ?_, ?_, ?_, ?_, ?_, ?_, ?_, ?_, ?_, ?_⟩
  · simp [initState]
  · simp [initState]
  · intro w i hr
    simp only [runningAt, initState, List.getElem?_replicate] at hr
    split at hr <;> simp_all
  · intro w i hr
    simp only [runningAt, initState, List.getElem?_replicate] at hr
    split at hr <;> simp_all
  · intro w i hr
    simp only [runningAt, initState, List.getElem?_replicate] at hr
    split at hr <;> simp_all
  · intro w w' i hr hr'
    simp only [runningAt, initState, List.getElem?_replicate] at hr
    split at hr <;> simp_all
  · intro i hi
    left
    simp [initState, List.getElem?_replicate, hi]
  · intro i hi
    constructor
    · intro h
      exact absurd h (by simp [initState])
    · rintro (h | ⟨w, hw⟩)
      · simp [initState, List.getElem?_replicate, hi] at h
      · simp only [runningAt, initState, List.getElem?_replicate] at hw
        split at hw <;> simp_all
  · simp [initState]
  · simp [initState]
  · intro i hi
    simp [initState, List.getElem?_replicate, hi]
  · intro w hw
    simp only [initState, List.getElem?_replicate] at hw
    split at hw <;> simp_all

theorem inv_claim_lt (run : Nat → TestResult) (N W : Nat) (s : SchedState) (w : Nat)
    (h : Inv run N W s) (hw : s.workers[w]? = some WStatus.idle) (hn : s.nextIndex < N) :
    Inv run N W { s with nextIndex := s.nextIndex + 1,
                         workers := s.workers.set w (WStatus.running s.nextIndex),
                         claims := s.claims ++ [(w, s.nextIndex)] } := by
  obtain ⟨hwlt, -⟩ := List.getElem?_eq_some_iff.mp hw
  have hidle : ∀ i, ¬ runningAt s w i := by
    intro i hri
    rw [runningAt, hw] at hri
    cases hri
  have hslotn : s.slots[s.nextIndex]? = some none := by
    rcases h.slotWF s.nextIndex hn with h0 | h1
    · exact h0
    · have := (h.slotChar s.nextIndex hn).mpr (Or.inl h1)
      omega
  have hrun : ∀ w' i,
      (s.workers.set w (WStatus.running s.nextIndex))[w']? = some (WStatus.running i) ↔
      ((w' = w ∧ i = s.nextIndex) ∨ (w' ≠ w ∧ runningAt s w' i)) := by
    intro w' i
    by_cases hww : w' = w
    · subst hww
      rw [List.getElem?_set_self hwlt]
      constructor
      · intro he
        injection he with he1
        injection he1 with he2
        exact Or.inl ⟨rfl, he2.symm⟩
      · rintro (⟨-, rfl⟩ | ⟨hne, -⟩)
        · rfl
        · exact absurd rfl hne
    · rw [List.getElem?_set_ne (Ne.symm hww)]
      constructor
      · intro hr
        exact Or.inr ⟨hww, hr⟩
      · rintro (⟨rfl, -⟩ | ⟨-, hr⟩)
        · exact absurd rfl hww
        · exact hr
  refine ⟨?_, ?_, ?_, ?_, ?_, ?_, ?_, ?_, ?_, ?_, ?_, ?_⟩
  · exact h.slotsLen
  · show (s.workers.set w (WStatus.running s.nextIndex)).length = W
    rw [List.length_set]
    exact h.workersLen
  · intro w' i hr
    show i < N ∧ i < s.nextIndex + 1
    rcases (hrun w' i).mp hr with ⟨-, rfl⟩ | ⟨-, hr'⟩
    · exact ⟨hn, by omega⟩
    · have := h.runBound w' i hr'
      omega
  · intro w' i hr
    show s.slots[i]? = some none
    rcases (hrun w' i).mp hr with ⟨-, rfl⟩ | ⟨-, hr'⟩
    · exact hslotn
    · exact h.runSlot w' i hr'
  · intro w' i hr
    show (w', i) ∈ s.claims ++ [(w, s.nextIndex)]
    rcases (hrun w' i).mp hr with ⟨rfl, rfl⟩ | ⟨-, hr'⟩
    · exact List.mem_append_right _ (List.mem_singleton.mpr rfl)
    · exact List.mem_append_left _ (h.runClaim w' i hr')
  · intro w1 w2 i h1 h2
    rcases (hrun w1 i).mp h1 with ⟨he1, hv1⟩ | ⟨hne1, hr1⟩
    · rcases (hrun w2 i).mp h2 with ⟨he2, -⟩ | ⟨-, hr2⟩
      · rw [he1, he2]
      · subst hv1
        have := h.runBound w2 s.nextIndex hr2
        omega
    · rcases (hrun w2 i).mp h2 with ⟨-, hv2⟩ | ⟨-, hr2⟩
      · subst hv2
        have := h.runBound w1 s.nextIndex hr1
        omega
      · exact h.runUnique w1 w2 i hr1 hr2
  · intro i hi
    exact h.slotWF i hi
  · intro i hi
    show i < s.nextIndex + 1 ↔ _
    constructor
    · intro hlt
      by_cases hin : i = s.nextIndex
      · subst hin
        exact Or.inr ⟨w, (hrun w s.nextIndex).mpr (Or.inl ⟨rfl, rfl⟩)⟩
      · have hi' : i < s.nextIndex := by omega
        rcases (h.slotChar i hi).mp hi' with hf | ⟨w', hr'⟩
        · exact Or.inl hf
        · have hne : w' ≠ w := by
            intro he
            subst he
            exact hidle i hr'
          exact Or.inr ⟨w', (hrun w' i).mpr (Or.inr ⟨hne, hr'⟩)⟩
    · rintro (hf | ⟨w', hr'⟩)
      · have := (h.slotChar i hi).mpr (Or.inl hf)
        omega
      · rcases (hrun w' i).mp hr' with ⟨-, rfl⟩ | ⟨-, hr''⟩
        · omega
        · have := (h.runBound w' i hr'').2
          omega
  · show (s.claims ++ [(w, s.nextIndex)]).map Prod.snd = List.range (s.nextIndex + 1)
    rw [List.map_append, h.claimsChar, List.range_succ]
    rfl
  · intro p hp
    exact List.mem_append_left _ (h.writesSub p hp)
  · intro i hi
    exact h.writesChar i hi
  · intro w' hd
    show N < s.nextIndex + 1
    by_cases hww : w' = w
    · subst hww
      rw [List.getElem?_set_self hwlt] at hd
      simp at hd
    · rw [List.getElem?_set_ne (Ne.symm hww)] at hd
      have := h.doneBound w' hd
      omega

theorem inv_claim_ge (run : Nat → TestResult) (N W : Nat) (s : SchedState) (w : Nat)
    (h : Inv run N W s) (hw : s.workers[w]? = some WStatus.idle) (hn : ¬ s.nextIndex < N) :
    Inv run N W { s with nextIndex := s.nextIndex + 1,
                         workers := s.workers.set w WStatus.done,
                         claims := s.claims ++ [(w, s.nextIndex)] } := by
  obtain ⟨hwlt, -⟩ := List.getElem?_eq_some_iff.mp hw
  have hidle : ∀ i, ¬ runningAt s w i := by
    intro i hri
    rw [runningAt, hw] at hri
    cases hri
  have hrun : ∀ w' i,
      (s.workers.set w WStatus.done)[w']? = some (WStatus.running i) ↔
      (w' ≠ w ∧ runningAt s w' i) := by
    intro w' i
    by_cases hww : w' = w
    · subst hww
      rw [List.getElem?_set_self hwlt]
      constructor
      · intro he
        simp at he
      · rintro ⟨hne, -⟩
        exact absurd rfl hne
    · rw [List.getElem?_set_ne (Ne.symm hww)]
      exact ⟨fun hr => ⟨hww, hr⟩, fun hp => hp.2⟩
  refine ⟨?_, ?_, ?_, ?_, ?_, ?_, ?_, ?_, ?_, ?_, ?_, ?_⟩
  · exact h.slotsLen
  · show (s.workers.set w WStatus.done).length = W
    rw [List.length_set]
    exact h.workersLen
  · intro w' i hr
    show i < N ∧ i < s.nextIndex + 1
    obtain ⟨-, hr'⟩ := (hrun w' i).mp hr
    have hb := h.runBound w' i hr'
    exact ⟨hb.1, by omega⟩
  · intro w' i hr
    obtain ⟨-, hr'⟩ := (hrun w' i).mp hr
    exact h.runSlot w' i hr'
  · intro w' i hr
    show (w', i) ∈ s.claims ++ [(w, s.nextIndex)]
    obtain ⟨-, hr'⟩ := (hrun w' i).mp hr
    exact List.mem_append_left _ (h.runClaim w' i hr')
  · intro w1 w2 i h1 h2
    obtain ⟨-, hr1⟩ := (hrun w1 i).mp h1
    obtain ⟨-, hr2⟩ := (hrun w2 i).mp h2
    exact h.runUnique w1 w2 i hr1 hr2
  · intro i hi
    exact h.slotWF i hi
  · intro i hi
    show i < s.nextIndex + 1 ↔ _
    constructor
    · intro hlt
      have hi' : i < s.nextIndex := by omega
      rcases (h.slotChar i hi).mp hi' with hf | ⟨w', hr'⟩
      · exact Or.inl hf
      · have hne : w' ≠ w := fun he => hidle i (he ▸ hr')
        exact Or.inr ⟨w', (hrun w' i).mpr ⟨hne, hr'⟩⟩
    · intro hrhs
      omega
  · show (s.claims ++ [(w, s.nextIndex)]).map Prod.snd = List.range (s.nextIndex + 1)
    rw [List.map_append, h.claimsChar, List.range_succ]
    rfl
  · intro p hp
    exact List.mem_append_left _ (h.writesSub p hp)
  · intro i hi
    exact h.writesChar i hi
  · intro w' hd
    show N < s.nextIndex + 1
    by_cases hww : w' = w
    · omega
    · rw [List.getElem?_set_ne (Ne.symm hww)] at hd
      have := h.doneBound w' hd
      omega

theorem inv_complete (run : Nat → TestResult) (N W : Nat) (s : SchedState) (w i0 : Nat)
    (h : Inv run N W s) (hw : s.workers[w]? = some (WStatus.running i0)) :
    Inv run N W { s with slots := s.slots.set i0 (some (run i0)),
                         workers := s.workers.set w WStatus.idle,
                         writes := s.writes ++ [(w, i0)] } := by
  obtain ⟨hwlt, -⟩ := List.getElem?_eq_some_iff.mp hw
  have hr0 : runningAt s w i0 := hw
  have hi0N : i0 < N := (h.runBound w i0 hr0).1
  have hi0n : i0 < s.nextIndex := (h.runBound w i0 hr0).2
  have hsl : s.slots[i0]? = some none := h.runSlot w i0 hr0
  have hcl : (w, i0) ∈ s.claims := h.runClaim w i0 hr0
  obtain ⟨hi0len, -⟩ := List.getElem?_eq_some_iff.mp hsl
  have hrun : ∀ w' i,
      (s.workers.set w WStatus.idle)[w']? = some (WStatus.running i) ↔
      (w' ≠ w ∧ runningAt s w' i) := by
    intro w' i
    by_cases hww : w' = w
    · subst hww
      rw [List.getElem?_set_self hwlt]
      constructor
      · intro he
        simp at he
      · rintro ⟨hne, -⟩
        exact absurd rfl hne
    · rw [List.getElem?_set_ne (Ne.symm hww)]
      exact ⟨fun hr => ⟨hww, hr⟩, fun hp => hp.2⟩
  have hrne : ∀ w' j, runningAt s w' j → w' ≠ w → j ≠ i0 := by
    intro w' j hr' hne he
    subst he
    exact hne (h.runUnique w' w j hr' hr0)
  refine ⟨?_, ?_, ?_, ?_, ?_, ?_, ?_, ?_, ?_, ?_, ?_, ?_⟩
  · show (s.slots.set i0 (some (run i0))).length = N
    rw [List.length_set]
    exact h.slotsLen
  · show (s.workers.set w WStatus.idle).length = W
    rw [List.length_set]
    exact h.workersLen
  · intro w' i hr
    obtain ⟨-, hr'⟩ := (hrun w' i).mp hr
    exact h.runBound w' i hr'
  · intro w' i hr
    show (s.slots.set i0 (some (run i0)))[i]? = some none
    obtain ⟨hne, hr'⟩ := (hrun w' i).mp hr
    have hji : i ≠ i0 := hrne w' i hr' hne
    rw [List.getElem?_set_ne (Ne.symm hji)]
    exact h.runSlot w' i hr'
  · intro w' i hr
    obtain ⟨-, hr'⟩ := (hrun w' i).mp hr
    exact h.runClaim w' i hr'
  · intro w1 w2 i h1 h2
    obtain ⟨-, hr1⟩ := (hrun w1 i).mp h1
    obtain ⟨-, hr2⟩ := (hrun w2 i).mp h2
    exact h.runUnique w1 w2 i hr1 hr2
  · intro j hj
    by_cases hji : j = i0
    · subst hji
      right
      show (s.slots.set j (some (run j)))[j]? = some (some (run j))
      rw [List.getElem?_set_self hi0len]
    · have hq : (s.slots.set i0 (some (run i0)))[j]? = s.slots[j]? :=
        List.getElem?_set_ne (Ne.symm hji)
      show (s.slots.set i0 (some (run i0)))[j]? = some none ∨
          (s.slots.set i0 (some (run i0)))[j]? = some (some (run j))
      rw [hq]
      exact h.slotWF j hj
  · intro j hj
    show j < s.nextIndex ↔ _
    by_cases hji : j = i0
    · subst hji
      constructor
      · intro hlt
        left
        show (s.slots.set j (some (run j)))[j]? = some (some (run j))
        rw [List.getElem?_set_self hi0len]
      · intro hrhs
        exact hi0n
    · constructor
      · intro hlt
        rcases (h.slotChar j hj).mp hlt with hf | ⟨w', hr'⟩
        · left
          show (s.slots.set i0 (some (run i0)))[j]? = some (some (run j))
          rw [List.getElem?_set_ne (Ne.symm hji)]
          exact hf
        · right
          have hne : w' ≠ w := by
            intro he
            have hj' : s.workers[w]? = some (WStatus.running j) := he ▸ hr'
            rw [hw] at hj'
            injection hj' with h1
            injection h1 with h2
            exact hji h2.symm
          exact ⟨w', (hrun w' j).mpr ⟨hne, hr'⟩⟩
      · rintro (hf | ⟨w', hr'⟩)
        · have hq : (s.slots.set i0 (some (run i0)))[j]? = s.slots[j]? :=
            List.getElem?_set_ne (Ne.symm hji)
          rw [hq] at hf
          exact (h.slotChar j hj).mpr (Or.inl hf)
        · obtain ⟨-, hr''⟩ := (hrun w' j).mp hr'
          exact (h.slotChar j hj).mpr (Or.inr ⟨w', hr''⟩)
  · exact h.claimsChar
  · intro p hp
    show p ∈ s.claims
    rcases List.mem_append.mp hp with h1 | h2
    · exact h.writesSub p h1
    · rw [List.mem_singleton] at h2
      subst h2
      exact hcl
  · intro j hj
    by_cases hji : j = i0
    · subst hji
      have old0 : (s.writes.filter fun p => p.2 == j).length = 0 := by
        simpa [hsl] using h.writesChar j hi0N
      show ((s.writes ++ [(w, j)]).filter fun p => p.2 == j).length =
          if (s.slots.set j (some (run j)))[j]? = some none then 0 else 1
      rw [List.filter_append, List.length_append, old0, List.getElem?_set_self hi0len]
      simp
    · have hne : i0 ≠ j := Ne.symm hji
      show ((s.writes ++ [(w, i0)]).filter fun p => p.2 == j).length =
          if (s.slots.set i0 (some (run i0)))[j]? = some none then 0 else 1
      rw [List.getElem?_set_ne hne, List.filter_append]
      have hfilter : ([(w, i0)].filter fun p => p.2 == j) = [] := by
        simp [hne]
      rw [hfilter, List.append_nil]
      exact h.writesChar j hj
  · intro w' hd
    show N < s.nextIndex
    by_cases hww : w' = w
    · subst hww
      rw [List.getElem?_set_self hwlt] at hd
      simp at hd
    · rw [List.getElem?_set_ne (Ne.symm hww)] at hd
      exact h.doneBound w' hd

theorem inv_step (run : Nat → TestResult) (N W : Nat) (s : SchedState) (w : Nat)
    (h : Inv run N W s) : Inv run N W (stepW run N s w) := by
  unfold stepW
  split
  · next heq =>
    split
    · next hn => exact inv_claim_lt run N W s w h heq hn
    · next hn => exact inv_claim_ge run N W s w h heq hn
  · next i heq => exact inv_complete run N W s w i h heq
  · exact h

theorem inv_foldl (run : Nat → TestResult) (N W : Nat) (sched : List Nat) (s : SchedState)
    (h : Inv run N W s) : Inv run N W (sched.foldl (stepW run N) s) := by
  induction sched generalizing s with
  | nil => exact h
  | cons a rest ih => exact ih _ (inv_step run N W s a h)

theorem inv_exec (run : Nat → TestResult) (N K : Nat) (sched : List Nat) :
    Inv run N (min K N) (exec run N K sched) :=
  inv_foldl run N (min K N) sched _ (inv_init run N (min K N))

theorem allDone_nextIndex (run : Nat → TestResult) (N K : Nat) (sched : List Nat)
    (hK : 1 ≤ K) (hN : 1 ≤ N) (hd : allDone (exec run N K sched)) :
    N < (exec run N K sched).nextIndex := by
  have hInv := inv_exec run N K sched
  have hWpos : 1 ≤ min K N := le_min hK hN
  have h0 : 0 < (exec run N K sched).workers.length := by
    rw [hInv.workersLen]
    omega
  obtain ⟨st, hst⟩ : ∃ st, (exec run N K sched).workers[0]? = some st := by
    rw [List.getElem?_eq_getElem h0]
    exact ⟨_, rfl⟩
  have hdone : st = WStatus.done := hd st (List.getElem?_mem hst)
  exact hInv.doneBound 0 (hdone ▸ hst)

theorem slots_of_allDone (run : Nat → TestResult) (N K : Nat) (sched : List Nat)
    (hK : 1 ≤ K) (hd : allDone (exec run N K sched)) :
    (exec run N K sched).slots = (List.range N).map (fun i => some (run i)) := by
  have hInv := inv_exec run N K sched
  rcases Nat.eq_zero_or_pos N with hN | hN
  · subst hN
    have h0 : (exec run 0 K sched).slots.length = 0 := hInv.slotsLen
    rw [List.length_eq_zero] at h0
    rw [h0]
    rfl
  · have hnext := allDone_nextIndex run N K sched hK hN hd
    apply List.ext_getElem?
    intro j
    by_cases hj : j < N
    · rcases (hInv.slotChar j hj).mp (by omega) with hf | ⟨w', hr'⟩
      · rw [hf, List.getElem?_map, List.getElem?_range hj]
        rfl
      · exfalso
        have hmem : WStatus.running j ∈ (exec run N K sched).workers :=
          List.getElem?_mem hr'
        have := hd _ hmem
        simp at this
    · have h1 : (exec run N K sched).slots[j]? = none :=
        List.getElem?_eq_none (by rw [hInv.slotsLen]; omega)
      have h2 : ((List.range N).map (fun i => some (run i)))[j]? = none :=
        List.getElem?_eq_none (by rw [List.length_map, List.length_range]; omega)
      rw [h1, h2]

theorem filter_snd_length (l : List (Nat × Nat)) (i : Nat) :
    (l.filter fun p => p.2 == i).length = ((l.map Prod.snd).filter fun j => j == i).length := by
  induction l with
  | nil => rfl
  | cons a rest ih =>
    simp only [List.map_cons, List.filter_cons]
    by_cases hc : (a.2 == i) = true
    · simp [hc, ih]
    · simp [hc, ih]

theorem range_filter_beq_length (n i : Nat) (h : i < n) :
    ((List.range n).filter fun j => j == i).length = 1 := by
  induction n with
  | zero => omega
  | succ m ih =>
    rw [List.range_succ, List.filter_append, List.length_append]
    by_cases hm : i < m
    · rw [ih hm]
      have hone : ([m].filter fun j => j == i) = [] := by
        have hf : (m == i) = false := by
          simp only [beq_eq_false_iff_ne, ne_eq]
          omega
        simp [hf]
      rw [hone]
      rfl
    · have him : i = m := by omega
      subst him
      have h0 : ((List.range i).filter fun j => j == i).length = 0 := by
        rw [List.length_eq_zero, List.filter_eq_nil_iff]
        intro a ha
        have : a < i := List.mem_range.mp ha
        simp only [beq_iff_eq]
        omega
      rw [h0]
      have hone : ([i].filter fun j => j == i) = [i] := by simp
      rw [hone]
      rfl

theorem range_filter_lt (N n : Nat) :
    ((List.range n).filter fun i => decide (i < N)) = List.range (min n N) := by
  induction n with
  | zero => simp
  | succ m ih =>
    rw [List.range_succ, List.filter_append, ih]
    by_cases hm : m < N
    · have h1 : ([m].filter fun i => decide (i < N)) = [m] := by simp [hm]
      have h2 : min (m + 1) N = (min m N) + 1 := by omega
      have h3 : min m N = m := by omega
      rw [h1, h2, List.range_succ, h3]
    · have h1 : ([m].filter fun i => decide (i < N)) = [] := by simp [hm]
      have h2 : min (m + 1) N = min m N := by omega
      rw [h1, List.append_nil, h2]

/-- C1: for every discovered file list of length N and every concurrency limit
K at least 1, once every worker of `runTestsWithConcurrency` has stopped, the
slot array has length N and slot i holds exactly the result of running file i;
every index below N was grabbed from the cursor exactly once, every slot was
written exactly once, and every write was performed by the worker that claimed
that index.  The schedule of worker steps is universally quantified, so the
alignment is independent of completion order. -/
theorem runTestsWithConcurrency_slot_alignment (run : Nat → TestResult) (N K : Nat)
    (sched : List Nat) (hK : 1 ≤ K) (hd : allDone (exec run N K sched)) :
    (exec run N K sched).slots = (List.range N).map (fun i => some (run i)) ∧
    (∀ i, i < N → ((exec run N K sched).claims.filter fun p => p.2 == i).length = 1) ∧
    (∀ i, i < N → ((exec run N K sched).writes.filter fun p => p.2 == i).length = 1) ∧
    (∀ p ∈ (exec run N K sched).writes, p ∈ (exec run N K sched).claims) := by
  have hInv := inv_exec run N K sched
  have hslots := slots_of_allDone run N K sched hK hd
  refine ⟨hslots, ?_, ?_, hInv.writesSub⟩
  · intro i hi
    rw [filter_snd_length, hInv.claimsChar]
    apply range_filter_beq_length
    have hN : 1 ≤ N := by omega
    have := allDone_nextIndex run N K sched hK hN hd
    omega
  · intro i hi
    have hw := hInv.writesChar i hi
    have hfill : (exec run N K sched).slots[i]? = some (some (run i)) := by
      rw [hslots, List.getElem?_map, List.getElem?_range hi]
      rfl
    rw [hfill] at hw
    simpa using hw

instance decAllDone (s : SchedState) : Decidable (allDone s) :=
  List.decidableBAll (fun st => st = WStatus.done) s.workers

/-- Concrete run function used by the witnesses. -/
def runW : Nat → TestResult := fun i => { success := i == 0, duration := i, error := none }

theorem runTestsWithConcurrency_slot_alignment_witness :
    (1 ≤ 2 ∧ allDone (exec runW 2 2 [0, 1, 1, 0, 0, 1])) ∧
    ((exec runW 2 2 [0, 1, 1, 0, 0, 1]).slots = (List.range 2).map (fun i => some (runW i)) ∧
    (∀ i, i < 2 → ((exec runW 2 2 [0, 1, 1, 0, 0, 1]).claims.filter fun p => p.2 == i).length = 1) ∧
    (∀ i, i < 2 → ((exec runW 2 2 [0, 1, 1, 0, 0, 1]).writes.filter fun p => p.2 == i).length = 1) ∧
    (∀ p ∈ (exec runW 2 2 [0, 1, 1, 0, 0, 1]).writes, p ∈ (exec runW 2 2 [0, 1, 1, 0, 0, 1]).claims)) :=
  ⟨⟨by decide, by decide⟩,
   runTestsWithConcurrency_slot_alignment runW 2 2 [0, 1, 1, 0, 0, 1] (by decide) (by decide)⟩

/-- C3: the parallel script starts exactly min(K, N) workers, at every reachable
instant the number of examples in flight is at most K, and each worker runs at
most one example at a time. -/
theorem scheduler_k_bound (run : Nat → TestResult) (N K : Nat) (sched : List Nat) :
    (initState N (min K N)).workers.length = min K N ∧
    runningCount (exec run N K sched) ≤ K ∧
    (∀ w i j, runningAt (exec run N K sched) w i → runningAt (exec run N K sched) w j → i = j) := by
  refine ⟨by simp [initState], ?_, ?_⟩
  · have hlen := (inv_exec run N K sched).workersLen
    have hfil := List.length_filter_le
      (fun st => match st with
        | WStatus.running _ => true
        | _ => false) (exec run N K sched).workers
    have hmin : min K N ≤ K := Nat.min_le_left K N
    calc runningCount (exec run N K sched)
        ≤ (exec run N K sched).workers.length := hfil
      _ = min K N := hlen
      _ ≤ K := hmin
  · intro w i j h1 h2
    have h1' : (exec run N K sched).workers[w]? = some (WStatus.running i) := h1
    have h2' : (exec run N K sched).workers[w]? = some (WStatus.running j) := h2
    rw [h1'] at h2'
    injection h2' with h3
    injection h3 with h4

/-- C10: in the parallel scheduler, at every reachable state the sequence of
cursor grabs is exactly 0, 1, 2, ... nextIndex - 1 in that order (so the
claimed indices are exactly the prefix below the cursor), and therefore the
j-th runner invocation across all workers is for file j-1: the in-range grabs
in order are exactly 0, ..., min(nextIndex, N) - 1. -/
theorem claim_cursor_in_order (run : Nat → TestResult) (N K : Nat) (sched : List Nat) :
    ((exec run N K sched).claims.map Prod.snd = List.range (exec run N K sched).nextIndex) ∧
    (∀ j : Nat, j < (exec run N K sched).claims.length →
      ((exec run N K sched).claims.map Prod.snd)[j]? = some j) ∧
    (((exec run N K sched).claims.map Prod.snd).filter (fun i => decide (i < N)) =
      List.range (min (exec run N K sched).nextIndex N)) := by
  have hInv := inv_exec run N K sched
  refine ⟨hInv.claimsChar, ?_, ?_⟩
  · intro j hj
    rw [hInv.claimsChar]
    apply List.getElem?_range
    have hlen : (exec run N K sched).claims.length = (exec run N K sched).nextIndex := by
      have := congrArg List.length hInv.claimsChar
      simpa using this
    omega
  · rw [hInv.claimsChar]
    exact range_filter_lt N (exec run N K sched).nextIndex

/-- Loop of the sequential validator: for each index in discovery order it
awaits the runner, pushes the result, and bumps the pass or fail counter.
The accumulator is (results, passed, failed). -/
def seqLoop (run : Nat → TestResult) :
    List Nat → List TestResult × Nat × Nat → List TestResult × Nat × Nat
  | [], st => st
  | i :: rest, st =>
    if (run i).success then seqLoop run rest (st.1 ++ [run i], st.2.1 + 1, st.2.2)
    else seqLoop run rest (st.1 ++ [run i], st.2.1, st.2.2 + 1)

/-- Sequential main over `N` discovered files, starting from empty results and
zero counters. -/
def seqRun (run : Nat → TestResult) (N : Nat) : List TestResult × Nat × Nat :=
  seqLoop run (List.range N) ([], 0, 0)

theorem seqLoop_spec (run : Nat → TestResult) (l : List Nat) (acc : List TestResult) (p f : Nat) :
    seqLoop run l (acc, p, f) =
      (acc ++ l.map run,
       p + (l.map run).countP (fun r => r.success),
       f + (l.map run).countP (fun r => !r.success)) := by
  induction l generalizing acc p f with
  | nil => simp [seqLoop]
  | cons i rest ih =>
    rw [seqLoop]
    by_cases hs : (run i).success
    · have hc1 : ((run i :: rest.map run).countP fun r => r.success) =
          ((rest.map run).countP fun r => r.success) + 1 := by
        simp [List.countP_cons, hs]
      have hc2 : ((run i :: rest.map run).countP fun r => !r.success) =
          ((rest.map run).countP fun r => !r.success) := by
        simp [List.countP_cons, hs]
      rw [if_pos hs, ih, List.map_cons, hc1, hc2]
      have harith : p + 1 + ((rest.map run).countP fun r => r.success) =
          p + (((rest.map run).countP fun r => r.success) + 1) := by omega
      rw [harith, List.append_assoc]
      rfl
    · have hs' : (run i).success = false := by
        revert hs
        cases (run i).success <;> simp
      have hc1 : ((run i :: rest.map run).countP fun r => r.success) =
          ((rest.map run).countP fun r => r.success) := by
        simp [List.countP_cons, hs']
      have hc2 : ((run i :: rest.map run).countP fun r => !r.success) =
          ((rest.map run).countP fun r => !r.success) + 1 := by
        simp [List.countP_cons, hs']
      rw [if_neg hs, ih, List.map_cons, hc1, hc2]
      have harith : f + 1 + ((rest.map run).countP fun r => !r.success) =
          f + (((rest.map run).countP fun r => !r.success) + 1) := by omega
      rw [harith, List.append_assoc]
      rfl

/-- Exit code of sequential main: 1 when the failed counter is positive, else
0; the top-level catch of main() exits 1 when an error was thrown. -/
def exitCodeSeq (x : Except String (List TestResult × Nat × Nat)) : Nat :=
  match x with
  | Except.error _ => 1
  | Except.ok st => if 0 < st.2.2 then 1 else 0

/-- Exit code of parallel main: failures are counted by filtering the result
array; the top-level catch of main() exits 1 when an error was thrown. -/
def exitCodePar (x : Except String (List TestResult)) : Nat :=
  match x with
  | Except.error _ => 1
  | Except.ok results => if 0 < (results.filter fun r => !r.success).length then 1 else 0

theorem countP_fail_zero_iff (rs : List TestResult) :
    (rs.countP fun r => !r.success) = 0 ↔ ∀ r ∈ rs, r.success = true := by
  rw [List.countP_eq_zero]
  constructor
  · intro h r hr
    have := h r hr
    revert this
    cases r.success <;> simp
  · intro h r hr
    rw [h r hr]
    simp

/-- C2: in both run modes the exit status is 0 if and only if every produced
TestResult is a success; it is 1 when some result failed, and also 1 when a
discovery or harness error is thrown before results are produced (the
top-level catch). The exit status takes no other value. -/
theorem exit_status_iff_all_success (run : Nat → TestResult) (N : Nat) :
    (exitCodeSeq (Except.ok (seqRun run N)) = 0 ↔ ∀ r ∈ (seqRun run N).1, r.success = true) ∧
    (∀ results : List TestResult,
      exitCodePar (Except.ok results) = 0 ↔ ∀ r ∈ results, r.success = true) ∧
    (∀ e : String, exitCodeSeq (Except.error e) = 1 ∧ exitCodePar (Except.error e) = 1) ∧
    (∀ x : Except String (List TestResult × Nat × Nat), exitCodeSeq x = 0 ∨ exitCodeSeq x = 1) ∧
    (∀ x : Except String (List TestResult), exitCodePar x = 0 ∨ exitCodePar x = 1) := by
  refine ⟨?_, ?_, fun e => ⟨rfl, rfl⟩, ?_, ?_⟩
  · rw [seqRun, seqLoop_spec]
    simp only [exitCodeSeq, List.nil_append, Nat.zero_add]
    by_cases h : (((List.range N).map run).countP fun r => !r.success) = 0
    · rw [h]
      simp only [Nat.lt_irrefl, if_false]
      rw [← countP_fail_zero_iff, h]
      simp
    · rw [if_pos (Nat.pos_of_ne_zero h)]
      rw [← countP_fail_zero_iff] at *
      constructor
      · intro h10
        omega
      · intro hall
        exact absurd hall h
  · intro results
    simp only [exitCodePar]
    rw [← List.countP_eq_length_filter]
    by_cases h : (results.countP fun r => !r.success) = 0
    · rw [h]
      simp only [Nat.lt_irrefl, if_false]
      rw [← countP_fail_zero_iff, h]
      simp
    · rw [if_pos (Nat.pos_of_ne_zero h)]
      rw [← countP_fail_zero_iff] at *
      constructor
      · intro h10
        omega
      · intro hall
        exact absurd hall h
  · intro x
    match x with
    | Except.error e => exact Or.inr rfl
    | Except.ok st =>
      simp only [exitCodeSeq]
      by_cases h : 0 < st.2.2
      · rw [if_pos h]
        exact Or.inr rfl
      · rw [if_neg h]
        exact Or.inl rfl
  · intro x
    match x with
    | Except.error e => exact Or.inr rfl
    | Except.ok results =>
      simp only [exitCodePar]
      by_cases h : 0 < (results.filter fun r => !r.success).length
      · rw [if_pos h]
        exact Or.inr rfl
      · rw [if_neg h]
        exact Or.inl rfl

/-- C7: modelling each per-example run as a deterministic function from file
index to TestResult, the sequential results list equals the parallel slot
array element for element, for every concurrency limit K at least 1 and every
completed schedule; hence both modes compute the same pass count, fail count
and exit code. -/
theorem modes_equivalent (run : Nat → TestResult) (N K : Nat) (sched : List Nat)
    (hK : 1 ≤ K) (hd : allDone (exec run N K sched)) :
    (exec run N K sched).slots.filterMap id = (seqRun run N).1 ∧
    ((exec run N K sched).slots.filterMap id).countP (fun r => r.success) = (seqRun run N).2.1 ∧
    ((exec run N K sched).slots.filterMap id).countP (fun r => !r.success) = (seqRun run N).2.2 ∧
    exitCodePar (Except.ok ((exec run N K sched).slots.filterMap id)) =
      exitCodeSeq (Except.ok (seqRun run N)) := by
  have hslots := slots_of_allDone run N K sched hK hd
  have hres : (exec run N K sched).slots.filterMap id = (List.range N).map run := by
    rw [hslots, List.filterMap_map]
    have : (id ∘ fun i => some (run i)) = some ∘ run := rfl
    rw [this, List.filterMap_eq_map]
  have hseq := seqLoop_spec run (List.range N) [] 0 0
  rw [seqRun, hseq]
  simp only [List.nil_append, Nat.zero_add]
  refine ⟨hres, by rw [hres], by rw [hres], ?_⟩
  simp only [exitCodePar, exitCodeSeq]
  rw [← List.countP_eq_length_filter, hres]

theorem modes_equivalent_witness :
    (1 ≤ 2 ∧ allDone (exec runW 2 2 [0, 1, 1, 0, 0, 1])) ∧
    ((exec runW 2 2 [0, 1, 1, 0, 0, 1]).slots.filterMap id = (seqRun runW 2).1 ∧
    ((exec runW 2 2 [0, 1, 1, 0, 0, 1]).slots.filterMap id).countP (fun r => r.success) =
      (seqRun runW 2).2.1 ∧
    ((exec runW 2 2 [0, 1, 1, 0, 0, 1]).slots.filterMap id).countP (fun r => !r.success) =
      (seqRun runW 2).2.2 ∧
    exitCodePar (Except.ok ((exec runW 2 2 [0, 1, 1, 0, 0, 1]).slots.filterMap id)) =
      exitCodeSeq (Except.ok (seqRun runW 2))) :=
  ⟨⟨by decide, by decide⟩,
   modes_equivalent runW 2 2 [0, 1, 1, 0, 0, 1] (by decide) (by decide)⟩

/-- Events printed by the sequential validator loop: a start line is written
before the runner is awaited, and a finish line (carrying the result) after
the runner promise has fully resolved. -/
inductive SeqEvent where
  | start : Nat → SeqEvent
  | finish : Nat → TestResult → SeqEvent
deriving DecidableEq, Repr

/-- Event trace of the sequential loop over an index list: for each index in
order, its start event followed by its finish event.  The loop awaits the
runner promise (teardown included) before advancing, so no later start can
precede an earlier finish. -/
def seqEvents (run : Nat → TestResult) : List Nat → List SeqEvent
  | [] => []
  | i :: rest => SeqEvent.start i :: SeqEvent.finish i (run i) :: seqEvents run rest

/-- Event trace of sequential main over `N` files. -/
def seqTrace (run : Nat → TestResult) (N : Nat) : List SeqEvent :=
  seqEvents run (List.range N)

/-- Index reported by a finish event, if any. -/
def finishIndex : SeqEvent → Option Nat
  | SeqEvent.finish i _ => some i
  | _ => none

theorem seqEvents_getElem?_even (run : Nat → TestResult) (l : List Nat) (k : Nat) :
    (seqEvents run l)[2 * k]? = (l[k]?).map SeqEvent.start := by
  induction l generalizing k with
  | nil => simp [seqEvents]
  | cons i rest ih =>
    cases k with
    | zero => simp [seqEvents]
    | succ m =>
      have h2 : 2 * (m + 1) = (2 * m) + 1 + 1 := by omega
      rw [seqEvents, h2]
      simp only [List.getElem?_cons_succ]
      exact ih m

theorem seqEvents_getElem?_odd (run : Nat → TestResult) (l : List Nat) (k : Nat) :
    (seqEvents run l)[2 * k + 1]? = (l[k]?).map (fun i => SeqEvent.finish i (run i)) := by
  induction l generalizing k with
  | nil => simp [seqEvents]
  | cons i rest ih =>
    cases k with
    | zero => simp [seqEvents]
    | succ m =>
      have h2 : 2 * (m + 1) + 1 = (2 * m + 1) + 1 + 1 := by omega
      rw [seqEvents, h2]
      simp only [List.getElem?_cons_succ]
      exact ih m

theorem seqEvents_report (run : Nat → TestResult) (l : List Nat) :
    (seqEvents run l).filterMap finishIndex = l := by
  induction l with
  | nil => rfl
  | cons i rest ih => simp [seqEvents, List.filterMap_cons, finishIndex, ih]

/-- C9: in sequential mode, for consecutive examples i and i+1, the finish
event of example i (emitted only after its runner promise, teardown included,
has resolved) occurs in the trace strictly before the start event of example
i+1; both events occur at exactly one position; and the reported finish lines
list the examples in discovery order. -/
theorem sequential_completion_before_next_start (run : Nat → TestResult) (N i : Nat)
    (h : i + 1 < N) :
    (seqTrace run N)[2 * i + 1]? = some (SeqEvent.finish i (run i)) ∧
    (seqTrace run N)[2 * (i + 1)]? = some (SeqEvent.start (i + 1)) ∧
    (∀ j, (seqTrace run N)[j]? = some (SeqEvent.finish i (run i)) → j = 2 * i + 1) ∧
    (∀ j, (seqTrace run N)[j]? = some (SeqEvent.start (i + 1)) → j = 2 * (i + 1)) ∧
    (seqTrace run N).filterMap finishIndex = List.range N := by
  have hi : i < N := by omega
  refine ⟨?_, ?_, ?_, ?_, seqEvents_report run (List.range N)⟩
  · rw [seqTrace, seqEvents_getElem?_odd, List.getElem?_range hi]
    rfl
  · rw [seqTrace, seqEvents_getElem?_even, List.getElem?_range h]
    rfl
  · intro j hj
    rcases Nat.even_or_odd j with ⟨m, hm⟩ | ⟨m, hm⟩
    · have hm' : j = 2 * m := by omega
      rw [hm', seqTrace, seqEvents_getElem?_even] at hj
      cases hrange : (List.range N)[m]? with
      | none =>
        rw [hrange] at hj
        simp at hj
      | some v =>
        rw [hrange] at hj
        simp at hj
    · rw [hm, seqTrace, seqEvents_getElem?_odd] at hj
      cases hrange : (List.range N)[m]? with
      | none =>
        rw [hrange] at hj
        simp at hj
      | some v =>
        rw [hrange] at hj
        simp at hj
        obtain ⟨hv, -⟩ := hj
        have hmN : m < N := by
          obtain ⟨hlt, -⟩ := List.getElem?_eq_some_iff.mp hrange
          rw [List.length_range] at hlt
          exact hlt
        rw [List.getElem?_range hmN] at hrange
        injection hrange with hv2
        omega
  · intro j hj
    rcases Nat.even_or_odd j with ⟨m, hm⟩ | ⟨m, hm⟩
    · have hm' : j = 2 * m := by omega
      rw [hm', seqTrace, seqEvents_getElem?_even] at hj
      cases hrange : (List.range N)[m]? with
      | none =>
        rw [hrange] at hj
        simp at hj
      | some v =>
        rw [hrange] at hj
        simp at hj
        have hmN : m < N := by
          obtain ⟨hlt, -⟩ := List.getElem?_eq_some_iff.mp hrange
          rw [List.length_range] at hlt
          exact hlt
        rw [List.getElem?_range hmN] at hrange
        injection hrange with hv2
        omega
    · rw [hm, seqTrace, seqEvents_getElem?_odd] at hj
      cases hrange : (List.range N)[m]? with
      | none =>
        rw [hrange] at hj
        simp at hj
      | some v =>
        rw [hrange] at hj
        simp at hj

theorem sequential_completion_before_next_start_witness :
    (0 + 1 < 2) ∧
    ((seqTrace runW 2)[2 * 0 + 1]? = some (SeqEvent.finish 0 (runW 0)) ∧
    (seqTrace runW 2)[2 * (0 + 1)]? = some (SeqEvent.start (0 + 1)) ∧
    (∀ j, (seqTrace runW 2)[j]? = some (SeqEvent.finish 0 (runW 0)) → j = 2 * 0 + 1) ∧
    (∀ j, (seqTrace runW 2)[j]? = some (SeqEvent.start (0 + 1)) → j = 2 * (0 + 1)) ∧
    (seqTrace runW 2).filterMap finishIndex = List.range 2) :=
  ⟨by decide, sequential_completion_before_next_start runW 2 0 (by decide)⟩

/-- Companion server description: a start command and its arguments (the
closed tagged variant of the spec: either no companion server, expressed as
`none`, or this record). -/
structure ServerConfig where
  command : String
  args : List String
deriving DecidableEq, Repr

/-- Instrumented record of which runner was invoked for a file. -/
inductive RunnerCall where
  | client : String → RunnerCall
  | server : String → ServerConfig → RunnerCall
deriving DecidableEq, Repr

/-- Dispatch of sequential main: run `runServerExample(file, serverConfig)`
when `getServerConfig(file)` is non-null, else `runExample(file)`; the second
component logs the one runner invoked.  `g` abstracts `getServerConfig`, `re`
abstracts `runExample`, `rse` abstracts `runServerExample`. -/
def dispatchSeq (g : String → Option ServerConfig) (re : String → TestResult)
    (rse : String → ServerConfig → TestResult) (file : String) :
    TestResult × List RunnerCall :=
  match g file with
  | some cfg => (rse file cfg, [RunnerCall.server file cfg])
  | none => (re file, [RunnerCall.client file])

/-- Dispatch inside the parallel worker, transcribed from its own lines of
the script (identical in form to the sequential one). -/
def dispatchPar (g : String → Option ServerConfig) (re : String → TestResult)
    (rse : String → ServerConfig → TestResult) (file : String) :
    TestResult × List RunnerCall :=
  match g file with
  | some cfg => (rse file cfg, [RunnerCall.server file cfg])
  | none => (re file, [RunnerCall.client file])

/-- C8: for every example exactly one runner is invoked: the server runner
when `getServerConfig` returns a config, the plain runner when it returns
null; and the dispatch rule is the same in both run modes. -/
theorem dispatch_exactly_one_runner (g : String → Option ServerConfig)
    (re : String → TestResult) (rse : String → ServerConfig → TestResult) (file : String) :
    dispatchSeq g re rse file = dispatchPar g re rse file ∧
    (dispatchSeq g re rse file).2.length = 1 ∧
    (∀ cfg, g file = some cfg →
      (dispatchSeq g re rse file).1 = rse file cfg ∧
      (dispatchSeq g re rse file).2 = [RunnerCall.server file cfg]) ∧
    (g file = none →
      (dispatchSeq g re rse file).1 = re file ∧
      (dispatchSeq g re rse file).2 = [RunnerCall.client file]) := by
  cases hg : g file with
  | none => refine ⟨?_, ?_, ?_, ?_⟩ <;> simp [dispatchSeq, dispatchPar, hg]
  | some cfg => refine ⟨?_, ?_, ?_, ?_⟩ <;> simp [dispatchSeq, dispatchPar, hg]

/-- Concrete server-config resolver used by the witness: one known
server-paired path, null for every other file. -/
def gW : String → Option ServerConfig := fun file =>
  if file = "06-mcp/code/02-mcp-stdio-local.ts" then
    some { command := "tsx", args := ["stdio-calculator-server.ts"] }
  else none

/-- Concrete plain runner used by the witness. -/
def reW : String → TestResult := fun _ => { success := true, duration := 5, error := none }

/-- Concrete server runner used by the witness. -/
def rseW : String → ServerConfig → TestResult :=
  fun _ _ => { success := true, duration := 9, error := none }

theorem dispatch_exactly_one_runner_witness :
    (gW "06-mcp/code/02-mcp-stdio-local.ts" =
      some { command := "tsx", args := ["stdio-calculator-server.ts"] } ∧
     gW "01-basics/code/hello.ts" = none) ∧
    (((dispatchSeq gW reW rseW "06-mcp/code/02-mcp-stdio-local.ts").1 =
        rseW "06-mcp/code/02-mcp-stdio-local.ts"
          { command := "tsx", args := ["stdio-calculator-server.ts"] } ∧
      (dispatchSeq gW reW rseW "06-mcp/code/02-mcp-stdio-local.ts").2 =
        [RunnerCall.server "06-mcp/code/02-mcp-stdio-local.ts"
          { command := "tsx", args := ["stdio-calculator-server.ts"] }]) ∧
     ((dispatchSeq gW reW rseW "01-basics/code/hello.ts").1 = reW "01-basics/code/hello.ts" ∧
      (dispatchSeq gW reW rseW "01-basics/code/hello.ts").2 =
        [RunnerCall.client "01-basics/code/hello.ts"])) :=
  ⟨⟨by decide, by decide⟩,
   ⟨(dispatch_exactly_one_runner gW reW rseW "06-mcp/code/02-mcp-stdio-local.ts").2.2.1
      { command := "tsx", args := ["stdio-calculator-server.ts"] } (by decide),
    (dispatch_exactly_one_runner gW reW rseW "01-basics/code/hello.ts").2.2.2 (by decide)⟩⟩

/-- Leading-match test on character lists: the first list starts the second. -/
def charsLead : List Char → List Char → Bool
  | [], _ => true
  | _ :: _, [] => false
  | a :: as, b :: bs => a == b && charsLead as bs

/-- Occurrence test on character lists: the first list occurs contiguously
somewhere inside the second. -/
def charsHas (pat : List Char) : List Char → Bool
  | [] => charsLead pat []
  | c :: rest => charsLead pat (c :: rest) || charsHas pat rest

/-- Substring test used to state that a message contains a given phrase. -/
def strContains (s pat : String) : Bool := charsHas pat.data s.data

/-- Outcome of the client phase of a server-paired run, as seen by the
harness once the server is ready. -/
inductive ClientOutcome where
  | finished : TestResult → ClientOutcome
  | timedOut : ClientOutcome
  | harnessError : String → ClientOutcome
deriving DecidableEq, Repr

/-- Modelled from the spec: the environment of one `runServerExample` call of
`validation-common.ts` (that file is not among the available sources).  It
abstracts what the outside world does: whether the companion server reaches
readiness, and how the client phase ends if it runs. -/
structure ServerRunEnv where
  serverStartsOk : Bool
  clientOutcome : ClientOutcome
deriving DecidableEq, Repr

/-- Observable outcome of `runServerExample`: the returned TestResult plus
resource accounting: whether the client process was ever spawned, and how
many times the server process was terminated. -/
structure ServerRunTrace where
  result : TestResult
  clientSpawned : Bool
  serverTerminations : Nat
deriving DecidableEq, Repr

/-- Modelled from the spec: `runServerExample` of `validation-common.ts`,
the section 4.4 state machine.  Starting: spawn the server and wait for
readiness.  StartupFailed: when the server exits or errors before becoming
ready, return a failed result carrying a "server failed to start" message
without ever spawning the client.  Ready: delegate to the client run.  On
every path the server is terminated exactly once before returning. -/
def runServerExample (timeoutMs : Nat) (env : ServerRunEnv) : ServerRunTrace :=
  if env.serverStartsOk then
    match env.clientOutcome with
    | ClientOutcome.finished r =>
      { result := r, clientSpawned := true, serverTerminations := 1 }
    | ClientOutcome.timedOut =>
      { result := { success := false, duration := timeoutMs, error := some "timeout" },
        clientSpawned := true, serverTerminations := 1 }
    | ClientOutcome.harnessError msg =>
      { result := { success := false, duration := 0, error := some msg },
        clientSpawned := true, serverTerminations := 1 }
  else
    { result := { success := false, duration := 0, error := some "server failed to start" },
      clientSpawned := false, serverTerminations := 1 }

/-- C5: for every server-paired example, the server process is terminated
exactly once before `runServerExample` returns, whatever the outcome of the
run; and when the server never becomes ready, the result is a failure whose
message contains "server failed to start" and the client is never spawned. -/
theorem runServerExample_teardown (timeoutMs : Nat) (env : ServerRunEnv) :
    (runServerExample timeoutMs env).serverTerminations = 1 ∧
    (env.serverStartsOk = false →
      (runServerExample timeoutMs env).result.success = false ∧
      (∃ msg, (runServerExample timeoutMs env).result.error = some msg ∧
        strContains msg "server failed to start" = true) ∧
      (runServerExample timeoutMs env).clientSpawned = false) := by
  constructor
  · rw [runServerExample]
    by_cases hs : env.serverStartsOk
    · rw [if_pos hs]
      cases env.clientOutcome <;> rfl
    · rw [if_neg hs]
  · intro hs
    have hres : runServerExample timeoutMs env =
        { result := { success := false, duration := 0, error := some "server failed to start" },
          clientSpawned := false, serverTerminations := 1 } := by
      rw [runServerExample, hs]
      simp
    rw [hres]
    exact ⟨rfl, ⟨"server failed to start", rfl, by decide⟩, rfl⟩

/-- Environment in which the companion server never becomes ready, used by
the witness. -/
def envW : ServerRunEnv := { serverStartsOk := false, clientOutcome := ClientOutcome.timedOut }

theorem runServerExample_teardown_witness :
    (envW.serverStartsOk = false) ∧
    ((runServerExample 60000 envW).result.success = false ∧
     (∃ msg, (runServerExample 60000 envW).result.error = some msg ∧
        strContains msg "server failed to start" = true) ∧
     (runServerExample 60000 envW).clientSpawned = false) :=
  ⟨rfl, (runServerExample_teardown 60000 envW).2 rfl⟩

/-- Modelled from the spec: behaviour of the child process spawned by
`runExample` of `validation-common.ts`, as the harness observes it: either
the process exits (exit code and wall-clock duration within the bound), or
it exceeds the timeout bound. -/
inductive ProcBehaviour where
  | exits : Nat → Nat → ProcBehaviour
  | hangs : ProcBehaviour
deriving DecidableEq, Repr

/-- Observable outcome of `runExample`: the returned TestResult plus whether
the spawned child was reaped (terminated or exited) before returning. -/
structure ClientRunTrace where
  result : TestResult
  childReaped : Bool
deriving DecidableEq, Repr

/-- Modelled from the spec: `runExample` of `validation-common.ts`, section
4.3.  The example is spawned as a child process under a wall-clock bound;
success is a zero exit status; when the bound is exceeded the child is
forcibly terminated and a failure with a synthetic "timeout" message and
duration equal to the bound is recorded; the child is reaped on every exit
path. -/
def runExample (timeoutMs : Nat) (p : ProcBehaviour) : ClientRunTrace :=
  match p with
  | ProcBehaviour.exits code d =>
    { result := { success := code == 0, duration := d,
                  error := if code == 0 then none else some "exited with non-zero code" },
      childReaped := true }
  | ProcBehaviour.hangs =>
    { result := { success := false, duration := timeoutMs, error := some "timeout" },
      childReaped := true }

/-- C6: when the child process exceeds the timeout bound, `runExample`
returns a failure whose message contains "timeout" and whose duration equals
the bound; and on every exit path the child is reaped before returning. -/
theorem runExample_timeout (timeoutMs : Nat) (p : ProcBehaviour) :
    (runExample timeoutMs p).childReaped = true ∧
    (p = ProcBehaviour.hangs →
      (runExample timeoutMs p).result.success = false ∧
      (runExample timeoutMs p).result.duration = timeoutMs ∧
      (∃ msg, (runExample timeoutMs p).result.error = some msg ∧
        strContains msg "timeout" = true)) := by
  constructor
  · cases p <;> rfl
  · intro hp
    subst hp
    exact ⟨rfl, rfl, ⟨"timeout", rfl, by decide⟩⟩

theorem runExample_timeout_witness :
    (ProcBehaviour.hangs = ProcBehaviour.hangs) ∧
    ((runExample 30000 ProcBehaviour.hangs).result.success = false ∧
     (runExample 30000 ProcBehaviour.hangs).result.duration = 30000 ∧
     (∃ msg, (runExample 30000 ProcBehaviour.hangs).result.error = some msg ∧
        strContains msg "timeout" = true)) :=
  ⟨rfl, (runExample_timeout 30000 ProcBehaviour.hangs).2 rfl⟩

/-- One step of the scheduler when the runner promise may reject: identical
to `stepW` except that a rejection of the runner aborts the scheduler,
because the worker body has no catch: the rejection propagates through
`Promise.all` to the top-level catch of main(). -/
def stepWE (runE : Nat → Except String TestResult) (N : Nat) (s : SchedState) (w : Nat) :
    Except String SchedState :=
  match s.workers[w]? with
  | some WStatus.idle =>
    if s.nextIndex < N then
      Except.ok { s with nextIndex := s.nextIndex + 1,
                         workers := s.workers.set w (WStatus.running s.nextIndex),
                         claims := s.claims ++ [(w, s.nextIndex)] }
    else
      Except.ok { s with nextIndex := s.nextIndex + 1,
                         workers := s.workers.set w WStatus.done,
                         claims := s.claims ++ [(w, s.nextIndex)] }
  | some (WStatus.running i) =>
    match runE i with
    | Except.error e => Except.error e
    | Except.ok r =>
      Except.ok { s with slots := s.slots.set i (some r),
                         workers := s.workers.set w WStatus.idle,
                         writes := s.writes ++ [(w, i)] }
  | _ => Except.ok s

def execEGo (runE : Nat → Except String TestResult) (N : Nat) :
    List Nat → SchedState → Except String SchedState
  | [], s => Except.ok s
  | w :: rest, s =>
    match stepWE runE N s w with
    | Except.error e => Except.error e
    | Except.ok s2 => execEGo runE N rest s2

/-- Scheduler of `runTestsWithConcurrency` with possibly-rejecting runner
promises. -/
def execE (runE : Nat → Except String TestResult) (N K : Nat) (sched : List Nat) :
    Except String SchedState :=
  execEGo runE N sched (initState N (min K N))

/-- Exit code of parallel main over the possibly-aborting scheduler: the
top-level catch exits 1; otherwise the result array decides. -/
def exitOfExecE (x : Except String SchedState) : Nat :=
  match x with
  | Except.error _ => 1
  | Except.ok s => exitCodePar (Except.ok (s.slots.filterMap id))

theorem stepWE_ok (run : Nat → TestResult) (N : Nat) (s : SchedState) (w : Nat) :
    stepWE (fun i => Except.ok (run i)) N s w = Except.ok (stepW run N s w) := by
  unfold stepWE stepW
  cases hw : s.workers[w]? with
  | none => rfl
  | some st =>
    cases st with
    | idle =>
      by_cases hn : s.nextIndex < N
      · simp [hn]
      · simp [hn]
    | running i => rfl
    | done => rfl

theorem execEGo_ok (run : Nat → TestResult) (N : Nat) (sched : List Nat) (s : SchedState) :
    execEGo (fun i => Except.ok (run i)) N sched s =
      Except.ok (sched.foldl (stepW run N) s) := by
  induction sched generalizing s with
  | nil => rfl
  | cons a rest ih =>
    rw [execEGo, stepWE_ok]
    exact ih _

/-- C4 (amended): errors raised while an example runs are converted into
failed TestResults inside the runners themselves, which therefore always
resolve; with resolving runners the scheduler never aborts, behaves exactly
like the total model, and every completed schedule fills all slots, so the
run still produces a complete report.  The worker body has no catch of its
own, which is why the runners must resolve for this to hold. -/
theorem runner_resolution_keeps_scheduler_running (run : Nat → TestResult) (N K : Nat)
    (sched : List Nat) (hK : 1 ≤ K) (hd : allDone (exec run N K sched)) :
    execE (fun i => Except.ok (run i)) N K sched = Except.ok (exec run N K sched) ∧
    (exec run N K sched).slots = (List.range N).map (fun i => some (run i)) :=
  ⟨execEGo_ok run N sched _, slots_of_allDone run N K sched hK hd⟩

/-- Runner whose promise rejects for file 0 and resolves elsewhere. -/
def runE0 : Nat → Except String TestResult :=
  fun i => if i = 0 then Except.error "spawn ENOENT" else
    Except.ok { success := true, duration := 1, error := none }

/-- The same runs with the rejection replaced by resolution, for contrast. -/
def runOk0 : Nat → TestResult := fun _ => { success := true, duration := 1, error := none }

theorem worker_rejection_aborts_scheduler :
    execE runE0 2 1 [0, 0, 0, 0, 0] = Except.error "spawn ENOENT" ∧
    exitOfExecE (execE runE0 2 1 [0, 0, 0, 0, 0]) = 1 ∧
    allDone (exec runOk0 2 1 [0, 0, 0, 0, 0]) ∧
    (exec runOk0 2 1 [0, 0, 0, 0, 0]).slots =
      [some { success := true, duration := 1, error := none },
       some { success := true, duration := 1, error := none }] :=
  ⟨rfl, rfl, by decide, rfl⟩

theorem runner_resolution_keeps_scheduler_running_witness :
    (1 ≤ 1 ∧ allDone (exec runOk0 2 1 [0, 0, 0, 0, 0])) ∧
    (execE (fun i => Except.ok (runOk0 i)) 2 1 [0, 0, 0, 0, 0] =
      Except.ok (exec runOk0 2 1 [0, 0, 0, 0, 0]) ∧
     (exec runOk0 2 1 [0, 0, 0, 0, 0]).slots =
      (List.range 2).map (fun i => some (runOk0 i))) :=
  ⟨⟨by decide, by decide⟩,
   runner_resolution_keeps_scheduler_running runOk0 2 1 [0, 0, 0, 0, 0] (by decide) (by decide)⟩

end Validate
